import Mathlib

/-!
Verification of the BigQuery usage-log aggregation pipeline
(`metadata-ingestion/src/datahub/ingestion/source/bigquery_usage.py`).

Strings are embedded as `List Char` (named `Str` here) so that all string
operations used by the source (splitting, suffix tests, concatenation) are
plain list operations.  Python exceptions are embedded with `Except`;
Python `Counter` objects are embedded as insertion-ordered association
lists.  Machine-specific details (network clients, logging) have no
bearing on the verified claims and are omitted.
-/

abbrev Str := List Char

/-- Timestamps as used by the source: a plain record of calendar fields,
mirroring Python `datetime` together with its `replace` method.  Only the
fields that `get_time_bucket` touches are relevant. -/
structure DateTime where
  year : Nat
  month : Nat
  day : Nat
  hour : Nat
  minute : Nat
  second : Nat
  microsecond : Nat
deriving DecidableEq, Repr

/-- Field list of a timestamp, most significant first; used to define the
chronological (lexicographic) order. -/
def DateTime.fields (t : DateTime) : List Nat :=
  [t.year, t.month, t.day, t.hour, t.minute, t.second, t.microsecond]

/-- Chronological order on timestamps: lexicographic on the fields. -/
def DateTime.le (a b : DateTime) : Prop :=
  a.fields = b.fields ∨ List.Lex (· < ·) a.fields b.fields

/-- The two bucket widths of `_BucketDuration` in the source. -/
inductive BucketDuration where
  | DAY
  | HOUR
deriving DecidableEq, Repr

/-- `get_time_bucket` from the source: floors the timestamp to the closest
day or hour via `datetime.replace`. -/
def get_time_bucket (original : DateTime) (bucketing : BucketDuration) : DateTime :=
  match bucketing with
  | .HOUR => { original with minute := 0, second := 0, microsecond := 0 }
  | .DAY => { original with hour := 0, minute := 0, second := 0, microsecond := 0 }

/-- `BigQueryTableRef` from the source: a project/dataset/table triple. -/
structure BigQueryTableRef where
  project : Str
  dataset : Str
  table : Str
deriving DecidableEq, Repr

/-- `BigQueryTableRef.is_anonymous` from the source: the dataset starts
with an underscore. -/
def BigQueryTableRef.is_anonymous (r : BigQueryTableRef) : Bool :=
  match r.dataset with
  | [] => false
  | c :: _ => c = '_'

/-- The digit-group lengths accepted by `PARTITIONED_TABLE_REGEX`
(yearly, monthly, daily and hourly shard suffixes). -/
def shardSuffixLen (n : Nat) : Bool :=
  n = 4 || n = 6 || n = 8 || n = 10

/-- Whether `PARTITIONED_TABLE_REGEX` can split `name` at position `k`:
position `k` holds the underscore, at least one character precedes it
(the regex group is `.+`), and everything after it is a digit group of an
accepted length ending the string. -/
def regexSplitAt (name : Str) (k : Nat) : Bool :=
  decide (1 ≤ k) && name.get? k == some '_' &&
    (name.drop (k + 1)).all Char.isDigit &&
    shardSuffixLen (name.length - (k + 1))

/-- Greedy backtracking of the regex engine on `^(.+)_(...)$`: the longest
first group wins, i.e. the largest admissible split position.  Scans
positions `b - 1, b - 2, ...` downwards. -/
def greedySplitFrom (name : Str) : Nat → Option Nat
  | 0 => none
  | k + 1 => if regexSplitAt name k then some k else greedySplitFrom name k

/-- `PARTITIONED_TABLE_REGEX.match` on a table name, returning the text of
the first capture group when the regex matches. -/
def partitionedGroup1 (name : Str) : Option Str :=
  (greedySplitFrom name name.length).map (fun k => name.take k)

/-- `BigQueryTableRef.remove_extras` from the source: raise on `$`/`@`
decorators, otherwise strip a shard suffix when the partition regex
matches. -/
def BigQueryTableRef.remove_extras (r : BigQueryTableRef) : Except Str BigQueryTableRef :=
  if '$' ∈ r.table ∨ '@' ∈ r.table then
    .error ("cannot handle - poorly formatted table name".toList)
  else
    match partitionedGroup1 r.table with
    | some g1 => .ok { project := r.project, dataset := r.dataset, table := g1 }
    | none => .ok r

/-- Python `str.split(sep)` for a single-character separator: keeps empty
components and maps the empty string to `[""]`. -/
def pySplit (sep : Char) : Str → List Str
  | [] => [[]]
  | c :: rest =>
    match pySplit sep rest with
    | [] => [[]]
    | s :: ss => if c = sep then [] :: s :: ss else (c :: s) :: ss

/-- Python list indexing: `IndexError` when out of range. -/
def pyIndex (l : List Str) (i : Nat) : Except Str Str :=
  match l.get? i with
  | some x => .ok x
  | none => .error ("IndexError".toList)

/-- The `ValueError` message raised by `from_string_name`. -/
def valueErrorMsg : Str := "ValueError: invalid BigQuery table reference".toList

/-- `BigQueryTableRef.from_string_name` from the source: split on `/`,
check the `projects/.../datasets/.../tables/...` skeleton with Python's
left-to-right short-circuit evaluation (raising `ValueError` on a value
mismatch and `IndexError` on a missing component), and build the triple
from components 1, 3 and 5. -/
def BigQueryTableRef.from_string_name (ref : Str) : Except Str BigQueryTableRef :=
  match pyIndex (pySplit '/' ref) 0 with
  | .error e => .error e
  | .ok p0 =>
    if p0 ≠ "projects".toList then .error valueErrorMsg
    else match pyIndex (pySplit '/' ref) 2 with
    | .error e => .error e
    | .ok p2 =>
      if p2 ≠ "datasets".toList then .error valueErrorMsg
      else match pyIndex (pySplit '/' ref) 4 with
      | .error e => .error e
      | .ok p4 =>
        if p4 ≠ "tables".toList then .error valueErrorMsg
        else match pyIndex (pySplit '/' ref) 1, pyIndex (pySplit '/' ref) 3,
            pyIndex (pySplit '/' ref) 5 with
        | .error e, _, _ => .error e
        | .ok _, .error e, _ => .error e
        | .ok _, .ok _, .error e => .error e
        | .ok p1, .ok p3, .ok p5 => .ok { project := p1, dataset := p3, table := p5 }

/-- `BigQueryTableRef.__str__` from the source. -/
def BigQueryTableRef.toStr (r : BigQueryTableRef) : Str :=
  "projects/".toList ++ r.project ++ "/datasets/".toList ++ r.dataset
    ++ "/tables/".toList ++ r.table

/-! ### List helper lemmas -/

theorem get?_append_cons {α : Type} (l₁ : List α) (a : α) (l₂ : List α) :
    (l₁ ++ a :: l₂).get? l₁.length = some a := by
  induction l₁ with
  | nil => rfl
  | cons x xs ih => simpa using ih

theorem drop_append_cons {α : Type} (l₁ : List α) (a : α) (l₂ : List α) :
    (l₁ ++ a :: l₂).drop (l₁.length + 1) = l₂ := by
  induction l₁ with
  | nil => rfl
  | cons x xs ih => simpa using ih

theorem take_append_cons {α : Type} (l₁ : List α) (a : α) (l₂ : List α) :
    (l₁ ++ a :: l₂).take l₁.length = l₁ := by
  induction l₁ with
  | nil => rfl
  | cons x xs ih => simp [ih]

theorem list_split_at_get? {α : Type} :
    ∀ (l : List α) (k : Nat) (a : α), l.get? k = some a →
      l = l.take k ++ a :: l.drop (k + 1)
  | [], k, a, h => by simp at h
  | x :: xs, 0, a, h => by
      simp only [List.get?] at h
      injection h with h
      simp [h]
  | x :: xs, k + 1, a, h => by
      simp only [List.get?] at h
      have := list_split_at_get? xs k a h
      simp only [List.take, List.drop]
      exact congrArg (x :: ·) this

theorem get?_append_cons_right {α : Type} (l₁ : List α) (a : α) (l₂ : List α) :
    ∀ j, l₁.length + 1 ≤ j →
      (l₁ ++ a :: l₂).get? j = l₂.get? (j - (l₁.length + 1)) := by
  induction l₁ with
  | nil =>
    intro j hj
    cases j with
    | zero => exact absurd hj (by omega)
    | succ k =>
      show l₂.get? k = l₂.get? (k + 1 - (0 + 1))
      rfl
  | cons x xs ih =>
    intro j hj
    cases j with
    | zero => exact absurd hj (by omega)
    | succ k =>
      have hk' : xs.length + 1 ≤ k := by
        simp only [List.length_cons] at hj
        omega
      have hih := ih k hk'
      show (xs ++ a :: l₂).get? k = l₂.get? (k + 1 - ((x :: xs).length + 1))
      rw [hih]
      congr 1
      simp only [List.length_cons]
      omega

theorem dropLast_append_cons_of_ne_nil {α : Type} (l₁ : List α) (a : α) :
    ∀ (l₂ : List α), l₂ ≠ [] →
      (l₁ ++ a :: l₂).dropLast = l₁ ++ a :: l₂.dropLast := by
  intro l₂ h
  match l₂, h with
  | y :: ys, _ =>
    induction l₁ with
    | nil => simp [List.dropLast]
    | cons x xs ih =>
      have hne : (xs ++ a :: y :: ys) ≠ [] := by simp
      calc (x :: xs ++ a :: y :: ys).dropLast
          = x :: (xs ++ a :: y :: ys).dropLast := by
            rw [List.cons_append, List.dropLast_cons_of_ne_nil hne]
        _ = x :: xs ++ a :: (y :: ys).dropLast := by rw [ih]; rfl

/-! ### Facts about the shard-suffix regex and `remove_extras` -/

theorem greedySplitFrom_eq_some (name : Str) (k : Nat)
    (hk : regexSplitAt name k = true)
    (habove : ∀ j, k < j → regexSplitAt name j = false) :
    ∀ b, k < b → greedySplitFrom name b = some k := by
  intro b
  induction b with
  | zero => intro h; exact absurd h (Nat.not_lt_zero k)
  | succ b ih =>
    intro hkb
    rcases Nat.lt_or_ge k b with h | h
    · have : regexSplitAt name b = false := habove b h
      simp [greedySplitFrom, this, ih h]
    · have hbk : b = k := Nat.le_antisymm h (Nat.lt_succ_iff.mp hkb)
      subst hbk
      simp [greedySplitFrom, hk]

theorem greedySplitFrom_eq_none (name : Str)
    (h : ∀ k, regexSplitAt name k = false) :
    ∀ b, greedySplitFrom name b = none := by
  intro b
  induction b with
  | zero => rfl
  | succ b ih => simp [greedySplitFrom, h b, ih]

/-- When the table name decomposes as `g ++ '_' :: ds` with `ds` an
all-digit group, position `g.length` is an admissible regex split
(provided `g` is nonempty and the digit count is accepted). -/
theorem regexSplitAt_decomp (g ds : Str) (hg : g ≠ [])
    (hds : ds.all Char.isDigit = true) (hlen : shardSuffixLen ds.length = true) :
    regexSplitAt (g ++ '_' :: ds) g.length = true := by
  have h1 : 1 ≤ g.length := by
    cases g with
    | nil => exact absurd rfl hg
    | cons x xs => exact Nat.succ_le_succ (Nat.zero_le _)
  have h2 : (g ++ '_' :: ds).get? g.length = some '_' := get?_append_cons g '_' ds
  have h3 : (g ++ '_' :: ds).drop (g.length + 1) = ds := drop_append_cons g '_' ds
  have h4 : (g ++ '_' :: ds).length - (g.length + 1) = ds.length := by
    simp only [List.length_append, List.length_cons]
    omega
  simp only [regexSplitAt]
  rw [h2, h3, h4]
  simp [h1, hds, hlen]

/-- Above the final underscore every character is a digit, so no larger
split position is admissible. -/
theorem regexSplitAt_above_decomp (g ds : Str)
    (hds : ds.all Char.isDigit = true) :
    ∀ j, g.length < j → regexSplitAt (g ++ '_' :: ds) j = false := by
  intro j hj
  by_cases hget : (g ++ '_' :: ds).get? j = some '_'
  · exfalso
    have hjlen : j < (g ++ '_' :: ds).length := (List.get?_eq_some.mp hget).1
    have : (g ++ '_' :: ds).get? j = ds.get? (j - (g.length + 1)) :=
      get?_append_cons_right g '_' ds j hj
    rw [this] at hget
    have hmem : '_' ∈ ds := List.get?_mem hget
    have := List.all_eq_true.mp hds '_' hmem
    simp [Char.isDigit] at this
  · simp only [regexSplitAt]
    have hb : ((g ++ '_' :: ds).get? j == some '_') = false := by
      simp only [beq_eq_false_iff_ne, ne_eq]
      exact hget
    rw [hb]
    simp

/-- C4 amended, part 1: with a nonempty prefix before the final
underscore-digit group, `remove_extras` strips exactly that group. -/
theorem remove_extras_strips (p d g ds : Str) (hg : g ≠ [])
    (hds : ds.all Char.isDigit = true) (hlen : shardSuffixLen ds.length = true)
    (hnd : ¬('$' ∈ g ++ '_' :: ds ∨ '@' ∈ g ++ '_' :: ds)) :
    BigQueryTableRef.remove_extras ⟨p, d, g ++ '_' :: ds⟩ = .ok ⟨p, d, g⟩ := by
  have hsplit := regexSplitAt_decomp g ds hg hds hlen
  have habove := regexSplitAt_above_decomp g ds hds
  have hlt : g.length < (g ++ '_' :: ds).length := by
    simp [List.length_append]
  have hgr : greedySplitFrom (g ++ '_' :: ds) (g ++ '_' :: ds).length = some g.length :=
    greedySplitFrom_eq_some _ _ hsplit habove _ hlt
  have htake : (g ++ '_' :: ds).take g.length = g := take_append_cons g '_' ds
  have hgroup : partitionedGroup1 (g ++ '_' :: ds) = some g := by
    rw [partitionedGroup1, hgr, Option.map_some', htake]
  simp only [BigQueryTableRef.remove_extras, hgroup, if_neg hnd]

/-- C4 amended, part 2: a table name admitting no `prefix_digits`
decomposition (with nonempty prefix) is returned unchanged. -/
theorem remove_extras_unchanged (p d table : Str)
    (hnd : ¬('$' ∈ table ∨ '@' ∈ table))
    (hno : ¬∃ g ds, table = g ++ '_' :: ds ∧ g ≠ [] ∧
      ds.all Char.isDigit = true ∧ shardSuffixLen ds.length = true) :
    BigQueryTableRef.remove_extras ⟨p, d, table⟩ = .ok ⟨p, d, table⟩ := by
  have hall : ∀ k, regexSplitAt table k = false := by
    intro k
    by_contra hk
    have hk : regexSplitAt table k = true := by
      cases h : regexSplitAt table k with
      | false => exact absurd h hk
      | true => rfl
    have h1 : 1 ≤ k := by
      by_contra h1
      simp only [regexSplitAt] at hk
      simp [Nat.lt_of_not_le h1] at hk
      omega
    have h2 : table.get? k = some '_' := by
      simp only [regexSplitAt, Bool.and_eq_true, beq_iff_eq] at hk
      exact hk.1.1.2
    have h3 : (table.drop (k + 1)).all Char.isDigit = true := by
      simp only [regexSplitAt, Bool.and_eq_true] at hk
      exact hk.1.2
    have h4 : shardSuffixLen (table.length - (k + 1)) = true := by
      simp only [regexSplitAt, Bool.and_eq_true] at hk
      exact hk.2
    have hsplit := list_split_at_get? table k '_' h2
    apply hno
    refine ⟨table.take k, table.drop (k + 1), hsplit, ?_, h3, ?_⟩
    · have hklen : k < table.length := (List.get?_eq_some.mp h2).1
      have : (table.take k).length = k := by
        rw [List.length_take]
        omega
      intro hnil
      rw [hnil] at this
      simp at this
      omega
    · have : (table.drop (k + 1)).length = table.length - (k + 1) :=
        List.length_drop _ _
      rw [this]
      exact h4
  have hgroup : partitionedGroup1 table = none := by
    rw [partitionedGroup1, greedySplitFrom_eq_none table hall]
    rfl
  simp only [BigQueryTableRef.remove_extras, hgroup, if_neg hnd]

/-! ### Claim theorems: table reference normalization (C4, C5) -/

/-- C4 counterexample: the table name `_1234` ends in an underscore
followed by exactly 4 digits and contains neither `$` nor `@`, yet
`remove_extras` returns it unchanged instead of stripping the group
(which would leave the empty table name). -/
theorem c4_counterexample :
    ('$' ∉ "_1234".toList ∧ '@' ∉ "_1234".toList)
    ∧ "_1234".toList = [] ++ '_' :: "1234".toList
    ∧ ("1234".toList).all Char.isDigit = true
    ∧ ("1234".toList).length = 4
    ∧ BigQueryTableRef.remove_extras ⟨"p".toList, "d".toList, "_1234".toList⟩
        = .ok ⟨"p".toList, "d".toList, "_1234".toList⟩
    ∧ "_1234".toList ≠ ([] : Str) := by
  refine ⟨by decide, by decide, by decide, by decide, ?_, by decide⟩
  rfl

/-- C4 (amended): for a table name without `$` or `@`, if it decomposes as
a nonempty prefix, an underscore and a final group of exactly 4, 6, 8 or
10 digits, `remove_extras` strips exactly that group, keeping project and
dataset; any name without such a decomposition (in particular a bare
`_digits` name) is returned unchanged. -/
theorem remove_extras_spec (p d table : Str)
    (hnd : ¬('$' ∈ table ∨ '@' ∈ table)) :
    (∀ g ds, table = g ++ '_' :: ds → g ≠ [] → ds.all Char.isDigit = true →
      shardSuffixLen ds.length = true →
      BigQueryTableRef.remove_extras ⟨p, d, table⟩ = .ok ⟨p, d, g⟩)
    ∧ ((¬∃ g ds, table = g ++ '_' :: ds ∧ g ≠ [] ∧
        ds.all Char.isDigit = true ∧ shardSuffixLen ds.length = true) →
      BigQueryTableRef.remove_extras ⟨p, d, table⟩ = .ok ⟨p, d, table⟩) := by
  constructor
  · intro g ds hdec hg hds hlen
    subst hdec
    exact remove_extras_strips p d g ds hg hds hlen hnd
  · intro hno
    exact remove_extras_unchanged p d table hnd hno

/-- Witness for C4's amended theorem at the concrete name `a_1234`. -/
theorem remove_extras_spec_witness :
    BigQueryTableRef.remove_extras ⟨"p".toList, "d".toList, "a_1234".toList⟩
      = .ok ⟨"p".toList, "d".toList, "a".toList⟩ :=
  (remove_extras_spec "p".toList "d".toList "a_1234".toList (by decide)).1
    "a".toList "1234".toList (by decide) (by decide) (by decide) (by decide)

/-- C5: `remove_extras` raises exactly when the table name contains a `$`
or `@` decorator character; for every other name it succeeds. -/
theorem remove_extras_error_iff (r : BigQueryTableRef) :
    (∃ e, r.remove_extras = .error e) ↔ ('$' ∈ r.table ∨ '@' ∈ r.table) := by
  unfold BigQueryTableRef.remove_extras
  by_cases h : '$' ∈ r.table ∨ '@' ∈ r.table
  · simp [h]
  · simp only [if_neg h]
    constructor
    · rintro ⟨e, he⟩
      cases hg : partitionedGroup1 r.table <;> rw [hg] at he <;> exact absurd he (by simp)
    · intro hc
      exact absurd hc h

/-! ### Claim theorem: time bucketing (C9) -/

/-- The floor of a timestamp is chronologically no later than it. -/
theorem bucket_le_original (t : DateTime) (b : BucketDuration) :
    DateTime.le (get_time_bucket t b) t := by
  cases b
  · show DateTime.le { t with hour := 0, minute := 0, second := 0, microsecond := 0 } t
    unfold DateTime.le DateTime.fields
    rcases Nat.eq_zero_or_pos t.hour with hh | hh
    · rcases Nat.eq_zero_or_pos t.minute with hm | hm
      · rcases Nat.eq_zero_or_pos t.second with hs | hs
        · rcases Nat.eq_zero_or_pos t.microsecond with hu | hu
          · left; simp [hh, hm, hs, hu]
          · right; rw [hh, hm, hs]; exact .cons (.cons (.cons (.cons (.cons (.cons (.rel hu))))))
        · right; rw [hh, hm]; exact .cons (.cons (.cons (.cons (.cons (.rel hs)))))
      · right; rw [hh]; exact .cons (.cons (.cons (.cons (.rel hm))))
    · right; exact .cons (.cons (.cons (.rel hh)))
  · show DateTime.le { t with minute := 0, second := 0, microsecond := 0 } t
    unfold DateTime.le DateTime.fields
    rcases Nat.eq_zero_or_pos t.minute with hm | hm
    · rcases Nat.eq_zero_or_pos t.second with hs | hs
      · rcases Nat.eq_zero_or_pos t.microsecond with hu | hu
        · left; simp [hm, hs, hu]
        · right; rw [hm, hs]; exact .cons (.cons (.cons (.cons (.cons (.cons (.rel hu))))))
      · right; rw [hm]; exact .cons (.cons (.cons (.cons (.cons (.rel hs)))))
    · right; exact .cons (.cons (.cons (.cons (.rel hm))))

/-- C9: `get_time_bucket` is a deterministic floor: with DAY it zeroes
hour, minute, second and microsecond; with HOUR it zeroes minute, second
and microsecond; the documented examples hold and the result is never
chronologically later than the input. -/
theorem get_time_bucket_spec (t : DateTime) (b : BucketDuration) :
    get_time_bucket t .DAY
        = { t with hour := 0, minute := 0, second := 0, microsecond := 0 }
    ∧ get_time_bucket t .HOUR
        = { t with minute := 0, second := 0, microsecond := 0 }
    ∧ get_time_bucket ⟨2024, 3, 15, 14, 22, 0, 0⟩ .DAY = ⟨2024, 3, 15, 0, 0, 0, 0⟩
    ∧ get_time_bucket ⟨2024, 3, 15, 14, 22, 0, 0⟩ .HOUR = ⟨2024, 3, 15, 14, 0, 0, 0⟩
    ∧ DateTime.le (get_time_bucket t b) t :=
  ⟨rfl, rfl, rfl, rfl, bucket_le_original t b⟩

/-! ### Claim theorem: parsing table references from strings (C10) -/

theorem pyIndex_ok {l : List Str} {i : Nat} {x : Str} (h : l.get? i = some x) :
    pyIndex l i = .ok x := by unfold pyIndex; rw [h]

theorem pyIndex_err {l : List Str} {i : Nat} (h : l.get? i = none) :
    pyIndex l i = .error ("IndexError".toList) := by unfold pyIndex; rw [h]

/-- If `from_string_name` succeeds then the split has at least six
components and components 0, 2, 4 are the expected literals. -/
theorem from_string_name_ok_imp (ref : Str) (t : BigQueryTableRef)
    (h : BigQueryTableRef.from_string_name ref = .ok t) :
    6 ≤ (pySplit '/' ref).length
    ∧ (pySplit '/' ref).get? 0 = some "projects".toList
    ∧ (pySplit '/' ref).get? 2 = some "datasets".toList
    ∧ (pySplit '/' ref).get? 4 = some "tables".toList := by
  unfold BigQueryTableRef.from_string_name at h
  cases h0 : (pySplit '/' ref).get? 0 with
  | none => simp only [pyIndex_err h0] at h; simp at h
  | some p0 =>
  simp only [pyIndex_ok h0] at h
  by_cases e0 : p0 = "projects".toList
  case neg => rw [if_pos e0] at h; simp at h
  case pos =>
  rw [if_neg (by simp [e0])] at h
  cases h2 : (pySplit '/' ref).get? 2 with
  | none => simp only [pyIndex_err h2] at h; simp at h
  | some p2 =>
  simp only [pyIndex_ok h2] at h
  by_cases e2 : p2 = "datasets".toList
  case neg => rw [if_pos e2] at h; simp at h
  case pos =>
  rw [if_neg (by simp [e2])] at h
  cases h4 : (pySplit '/' ref).get? 4 with
  | none => simp only [pyIndex_err h4] at h; simp at h
  | some p4 =>
  simp only [pyIndex_ok h4] at h
  by_cases e4 : p4 = "tables".toList
  case neg => rw [if_pos e4] at h; simp at h
  case pos =>
  rw [if_neg (by simp [e4])] at h
  cases h1 : (pySplit '/' ref).get? 1 with
  | none => simp only [pyIndex_err h1] at h; simp at h
  | some p1 =>
  simp only [pyIndex_ok h1] at h
  cases h3 : (pySplit '/' ref).get? 3 with
  | none => simp only [pyIndex_err h3] at h; simp at h
  | some p3 =>
  simp only [pyIndex_ok h3] at h
  cases h5 : (pySplit '/' ref).get? 5 with
  | none => simp only [pyIndex_err h5] at h; simp at h
  | some p5 =>
  have hlen : 5 < (pySplit '/' ref).length := (List.get?_eq_some.mp h5).1
  subst e0; subst e2; subst e4
  exact ⟨hlen, rfl, rfl, rfl⟩

/-- If the split has six components with the expected literals at 0, 2
and 4, `from_string_name` succeeds on components 1, 3 and 5. -/
theorem from_string_name_ok_of (ref : Str)
    (hlen : 6 ≤ (pySplit '/' ref).length)
    (h0 : (pySplit '/' ref).get? 0 = some "projects".toList)
    (h2 : (pySplit '/' ref).get? 2 = some "datasets".toList)
    (h4 : (pySplit '/' ref).get? 4 = some "tables".toList) :
    ∃ t1 t3 t5, (pySplit '/' ref).get? 1 = some t1
      ∧ (pySplit '/' ref).get? 3 = some t3
      ∧ (pySplit '/' ref).get? 5 = some t5
      ∧ BigQueryTableRef.from_string_name ref = .ok ⟨t1, t3, t5⟩ := by
  obtain ⟨t1, h1⟩ : ∃ x, (pySplit '/' ref).get? 1 = some x :=
    ⟨_, List.get?_eq_get (by omega)⟩
  obtain ⟨t3, h3⟩ : ∃ x, (pySplit '/' ref).get? 3 = some x :=
    ⟨_, List.get?_eq_get (by omega)⟩
  obtain ⟨t5, h5⟩ : ∃ x, (pySplit '/' ref).get? 5 = some x :=
    ⟨_, List.get?_eq_get (by omega)⟩
  refine ⟨t1, t3, t5, h1, h3, h5, ?_⟩
  unfold BigQueryTableRef.from_string_name
  rw [pyIndex_ok h0, pyIndex_ok h2, pyIndex_ok h4, pyIndex_ok h1, pyIndex_ok h3,
    pyIndex_ok h5]
  simp

/-- C10: `from_string_name` succeeds, returning components 1, 3 and 5 of
the '/'-split, exactly when the split has at least six components with
component 0 = "projects", component 2 = "datasets" and component 4 =
"tables" (extra trailing components are ignored); on every other input it
fails with an error. -/
theorem from_string_name_spec (ref : Str) :
    ((6 ≤ (pySplit '/' ref).length
        ∧ (pySplit '/' ref).get? 0 = some "projects".toList
        ∧ (pySplit '/' ref).get? 2 = some "datasets".toList
        ∧ (pySplit '/' ref).get? 4 = some "tables".toList) →
      ∃ t1 t3 t5, (pySplit '/' ref).get? 1 = some t1
        ∧ (pySplit '/' ref).get? 3 = some t3
        ∧ (pySplit '/' ref).get? 5 = some t5
        ∧ BigQueryTableRef.from_string_name ref = .ok ⟨t1, t3, t5⟩)
    ∧ (¬(6 ≤ (pySplit '/' ref).length
        ∧ (pySplit '/' ref).get? 0 = some "projects".toList
        ∧ (pySplit '/' ref).get? 2 = some "datasets".toList
        ∧ (pySplit '/' ref).get? 4 = some "tables".toList) →
      ∃ e, BigQueryTableRef.from_string_name ref = .error e) := by
  constructor
  · rintro ⟨hlen, h0, h2, h4⟩
    exact from_string_name_ok_of ref hlen h0 h2 h4
  · intro hneg
    cases h : BigQueryTableRef.from_string_name ref with
    | error e => exact ⟨e, rfl⟩
    | ok t => exact absurd (from_string_name_ok_imp ref t h) hneg

/-- Witness for C10 on the concrete reference string
`projects/p/datasets/d/tables/t/x` (an extra trailing component). -/
theorem from_string_name_spec_witness :
    ∃ t1 t3 t5,
      (pySplit '/' "projects/p/datasets/d/tables/t/x".toList).get? 1 = some t1
      ∧ (pySplit '/' "projects/p/datasets/d/tables/t/x".toList).get? 3 = some t3
      ∧ (pySplit '/' "projects/p/datasets/d/tables/t/x".toList).get? 5 = some t5
      ∧ BigQueryTableRef.from_string_name "projects/p/datasets/d/tables/t/x".toList
          = .ok ⟨t1, t3, t5⟩ :=
  (from_string_name_spec "projects/p/datasets/d/tables/t/x".toList).1
    ⟨by decide, by decide, by decide, by decide⟩

/-! ### Audit log entries and the event parser -/

/-- JSON-like payloads of audit log entries, as handed over by the GCP
logging client. -/
inductive Json where
  | str (s : Str)
  | num (n : Nat)
  | obj (fields : List (Str × Json))
  | arr (elems : List Json)
  | null

/-- Python `d[key]` on a payload node, returning `none` on a missing key
(`KeyError`) or a non-dict node (`TypeError`); the two shape-probing
`can_parse_entry` helpers catch exactly these two exceptions. -/
def jsonGet (j : Json) (key : Str) : Option Json :=
  match j with
  | .obj fields => (fields.find? (fun p => p.1 == key)).map (·.2)
  | _ => none

/-- Python `d[key]` where the exception propagates (as in `from_entry`). -/
def jsonGetE (j : Json) (key : Str) : Except Str Json :=
  match jsonGet j key with
  | some v => .ok v
  | none => .error ("KeyError: ".toList ++ key)

/-- String content of a payload leaf.  The source assigns payload values
directly into string-typed event fields; for the well-typed payloads this
development evaluates, the value is always a string leaf. -/
def Json.asString : Json → Str
  | .str s => s
  | _ => []

/-- List-of-strings content of a payload node (the `fields` list). -/
def Json.asStrList : Json → List Str
  | .arr es => es.map Json.asString
  | _ => []

/-- Python truthiness of a payload value. -/
def Json.truthy : Json → Bool
  | .null => false
  | .str s => !s.isEmpty
  | .num n => n != 0
  | .obj f => !f.isEmpty
  | .arr e => !e.isEmpty

/-- One raw audit log entry: nested payload, timestamp and the
identifying log-name/insert-id pair used in failure reports. -/
structure AuditLogEntry where
  payload : Json
  timestamp : DateTime
  log_name : Str
  insert_id : Str

/-- `ReadEvent` from the source (the `payload` debug field is `None`
because `DEBUG_INCLUDE_FULL_PAYLOADS` is `False`). -/
structure ReadEvent where
  timestamp : DateTime
  actor_email : Str
  resource : BigQueryTableRef
  fieldsRead : List Str
  readReason : Str
  jobName : Option Str
  payload : Option Json := none
  query : Option Str := none

/-- `QueryEvent` from the source. -/
structure QueryEvent where
  timestamp : DateTime
  actor_email : Str
  query : Str
  destinationTable : Option BigQueryTableRef
  referencedTables : Option (List BigQueryTableRef)
  jobName : Str
  payload : Option Json := none

/-- `_job_name_ref` from the source. -/
def jobNameRef (project jobId : Str) : Str :=
  "projects/".toList ++ project ++ "/jobs/".toList ++ jobId

/-- `ReadEvent.can_parse_entry` from the source: probe
`payload["metadata"]["tableDataRead"]`, catching `KeyError`/`TypeError`. -/
def ReadEvent.can_parse_entry (entry : AuditLogEntry) : Bool :=
  ((jsonGet entry.payload "metadata".toList).bind
    (fun m => jsonGet m "tableDataRead".toList)).isSome

/-- `QueryEvent.can_parse_entry` from the source: probe
`payload["serviceData"]["jobCompletedEvent"]["job"]`. -/
def QueryEvent.can_parse_entry (entry : AuditLogEntry) : Bool :=
  (((jsonGet entry.payload "serviceData".toList).bind
      (fun sd => jsonGet sd "jobCompletedEvent".toList)).bind
    (fun jce => jsonGet jce "job".toList)).isSome

/-- `ReadEvent.from_entry` from the source, with the source's evaluation
order; any missing key raises (`KeyError`), which the parser stage does
not catch. -/
def ReadEvent.from_entry (entry : AuditLogEntry) : Except Str ReadEvent := do
  let auth ← jsonGetE entry.payload "authenticationInfo".toList
  let user ← jsonGetE auth "principalEmail".toList
  let resourceName ← jsonGetE entry.payload "resourceName".toList
  let metadata ← jsonGetE entry.payload "metadata".toList
  let readInfo ← jsonGetE metadata "tableDataRead".toList
  let fields ← jsonGetE readInfo "fields".toList
  let readReason ← jsonGetE readInfo "reason".toList
  let jobName ← if readReason.asString == "JOB".toList then do
      let jn ← jsonGetE readInfo "jobName".toList
      pure (some jn.asString)
    else pure none
  let resource ← BigQueryTableRef.from_string_name resourceName.asString
  pure { timestamp := entry.timestamp, actor_email := user.asString,
         resource := resource, fieldsRead := fields.asStrList,
         readReason := readReason.asString, jobName := jobName }

/-- `BigQueryTableRef.from_spec_obj` from the source. -/
def BigQueryTableRef.from_spec_obj (spec : Json) : Except Str BigQueryTableRef := do
  let p ← jsonGetE spec "projectId".toList
  let d ← jsonGetE spec "datasetId".toList
  let t ← jsonGetE spec "tableId".toList
  pure { project := p.asString, dataset := d.asString, table := t.asString }

/-- `QueryEvent.from_entry` from the source, with the source's evaluation
order (`jobStatistics.get("referencedTables")` does not raise on a
missing key; every other access does). -/
def QueryEvent.from_entry (entry : AuditLogEntry) : Except Str QueryEvent := do
  let auth ← jsonGetE entry.payload "authenticationInfo".toList
  let user ← jsonGetE auth "principalEmail".toList
  let sd ← jsonGetE entry.payload "serviceData".toList
  let jce ← jsonGetE sd "jobCompletedEvent".toList
  let job ← jsonGetE jce "job".toList
  let jn ← jsonGetE job "jobName".toList
  let projId ← jsonGetE jn "projectId".toList
  let jobId ← jsonGetE jn "jobId".toList
  let jobConfig ← jsonGetE job "jobConfiguration".toList
  let q ← jsonGetE jobConfig "query".toList
  let rawQuery ← jsonGetE q "query".toList
  let rawDestTable ← jsonGetE q "destinationTable".toList
  let destinationTable ← if rawDestTable.truthy then do
      let t ← BigQueryTableRef.from_spec_obj rawDestTable
      pure (some t)
    else pure none
  let jobStats ← jsonGetE job "jobStatistics".toList
  let referencedTables ← match jsonGet jobStats "referencedTables".toList with
    | none => pure none
    | some rt =>
      if rt.truthy then do
        let specs := match rt with | .arr es => es | _ => []
        let ts ← specs.mapM BigQueryTableRef.from_spec_obj
        pure (some ts)
      else pure none
  pure { timestamp := entry.timestamp, actor_email := user.asString,
         query := rawQuery.asString, destinationTable := destinationTable,
         referencedTables := referencedTables,
         jobName := jobNameRef projId.asString jobId.asString }

/-- The union type yielded by the parser stage. -/
inductive Event where
  | read (r : ReadEvent)
  | query (q : QueryEvent)

/-- Result of running `_parse_bigquery_log_entries` over a finite entry
stream: the events yielded, the number of parse failures reported, and
the exception (if any) that aborted the stream. -/
structure ParseOutcome where
  emitted : List Event
  failures : Nat
  raised : Option Str

/-- The message of Python's unbound-local exception, raised when `yield
event` executes before `event` was ever assigned. -/
def unboundLocalMsg : Str := "UnboundLocalError: event".toList

/-- Outcome of the `if` / `elif` / `else` classification of the loop body
of `_parse_bigquery_log_entries`: an event of either kind, a parse
failure, or an exception raised while decoding. -/
inductive Classified where
  | readEv (r : ReadEvent)
  | queryEv (q : QueryEvent)
  | failed
  | raisedE (msg : Str)

/-- The `if ReadEvent.can_parse_entry` / `elif QueryEvent.can_parse_entry`
/ `else` classification from the source, calling `from_entry` only in
the branch actually taken. -/
def classifyEntry (e : AuditLogEntry) : Classified :=
  if ReadEvent.can_parse_entry e then
    match ReadEvent.from_entry e with
    | .ok r => .readEv r
    | .error m => .raisedE m
  else if QueryEvent.can_parse_entry e then
    match QueryEvent.from_entry e with
    | .ok q => .queryEv q
    | .error m => .raisedE m
  else .failed

/-- The loop of `_parse_bigquery_log_entries` from the source, over the
classification outcomes of the entries.  `last` is the current value of
the function-scoped variable `event` (`none` before the first
assignment).  Faithful to the source, the failure branch reports a
failure but still executes `yield event`, which re-yields the previous
event, or raises `UnboundLocalError` when no entry has parsed yet; an
exception from `from_entry` aborts the stream. -/
def parseLoop (last : Option Event) : List Classified → ParseOutcome
  | [] => { emitted := [], failures := 0, raised := none }
  | .raisedE msg :: _ => { emitted := [], failures := 0, raised := some msg }
  | .readEv r :: rest =>
    let o := parseLoop (some (.read r)) rest
    { o with emitted := .read r :: o.emitted }
  | .queryEv q :: rest =>
    let o := parseLoop (some (.query q)) rest
    { o with emitted := .query q :: o.emitted }
  | .failed :: rest =>
    match last with
    | none => { emitted := [], failures := 1, raised := some unboundLocalMsg }
    | some ev =>
      let o := parseLoop (some ev) rest
      { o with emitted := ev :: o.emitted, failures := o.failures + 1 }

/-- `_parse_bigquery_log_entries` from the source, as a function of the
whole (finite) entry stream. -/
def parseBigqueryLogEntries (entries : List AuditLogEntry) : ParseOutcome :=
  parseLoop none (entries.map classifyEntry)

/-! ### Claim theorems: the event parser (C2, C3) -/

/-- A fixed timestamp for concrete sample entries. -/
def sampleTs : DateTime := ⟨2021, 5, 1, 12, 30, 0, 0⟩

/-- An entry matching neither event shape. -/
def badEntry : AuditLogEntry :=
  { payload := .obj [], timestamp := sampleTs,
    log_name := "log".toList, insert_id := "i1".toList }

/-- A well-formed table-data-read entry. -/
def goodReadEntry : AuditLogEntry :=
  { payload := .obj [
      ("authenticationInfo".toList, .obj [("principalEmail".toList, .str "a@x.com".toList)]),
      ("resourceName".toList, .str "projects/p/datasets/d/tables/t".toList),
      ("metadata".toList, .obj [("tableDataRead".toList, .obj [
        ("fields".toList, .arr [.str "c1".toList]),
        ("reason".toList, .str "JOB".toList),
        ("jobName".toList, .str "projects/p/jobs/j1".toList)])])],
    timestamp := sampleTs, log_name := "log".toList, insert_id := "i0".toList }

/-- The ReadEvent that `goodReadEntry` parses to. -/
def goodReadEvent : ReadEvent :=
  { timestamp := sampleTs, actor_email := "a@x.com".toList,
    resource := ⟨"p".toList, "d".toList, "t".toList⟩,
    fieldsRead := ["c1".toList], readReason := "JOB".toList,
    jobName := some "projects/p/jobs/j1".toList }

/-- C2 (code bug): on an entry matching neither shape the parser records
one failure, but the unconditional `yield event` then raises
`UnboundLocalError` when the bad entry is the first of the stream
(aborting it), and re-emits the previous entry's event (a duplicate)
otherwise — instead of skipping the entry and continuing cleanly. -/
theorem parse_failure_bug :
    parseBigqueryLogEntries [badEntry]
      = { emitted := [], failures := 1, raised := some unboundLocalMsg }
    ∧ parseBigqueryLogEntries [goodReadEntry, badEntry]
      = { emitted := [.read goodReadEvent, .read goodReadEvent],
          failures := 1, raised := none } :=
  ⟨rfl, rfl⟩

/-- An entry passing the read-event shape check but with no
authentication-info block. -/
def shapeOnlyEntry : AuditLogEntry :=
  { payload := .obj [("metadata".toList, .obj [("tableDataRead".toList, .obj [])])],
    timestamp := sampleTs, log_name := "log".toList, insert_id := "i2".toList }

/-- C3 counterexample: an entry whose payload passes the
table-data-read shape check but lacks the authentication-info sub-field
makes the parser raise (`KeyError` out of `from_entry`), rather than
falling through to the next candidate type or the failure path. -/
theorem parser_raise_counterexample :
    ReadEvent.can_parse_entry shapeOnlyEntry = true
    ∧ jsonGet shapeOnlyEntry.payload "authenticationInfo".toList = none
    ∧ parseBigqueryLogEntries [shapeOnlyEntry]
        = { emitted := [], failures := 0,
            raised := some ("KeyError: ".toList ++ "authenticationInfo".toList) } :=
  ⟨rfl, rfl, rfl⟩

/-- C3 (amended): a missing sub-field that the shape check itself probes
makes the shape check fail (it never raises), and the entry falls
through; but an entry that passes the shape check and is missing a
decode-time sub-field such as the authentication-info block raises a
`KeyError` out of the parser stage, aborting the stream. -/
theorem parser_keyerror_propagates (entry : AuditLogEntry) (rest : List AuditLogEntry)
    (hshape : ReadEvent.can_parse_entry entry = true)
    (hauth : jsonGet entry.payload "authenticationInfo".toList = none) :
    ReadEvent.from_entry entry
      = .error ("KeyError: ".toList ++ "authenticationInfo".toList)
    ∧ parseBigqueryLogEntries (entry :: rest)
      = { emitted := [], failures := 0,
          raised := some ("KeyError: ".toList ++ "authenticationInfo".toList) } := by
  have herr : ReadEvent.from_entry entry
      = .error ("KeyError: ".toList ++ "authenticationInfo".toList) := by
    unfold ReadEvent.from_entry jsonGetE
    rw [hauth]
    rfl
  refine ⟨herr, ?_⟩
  have hclass : classifyEntry entry
      = .raisedE ("KeyError: ".toList ++ "authenticationInfo".toList) := by
    unfold classifyEntry
    rw [hshape, herr]
    rfl
  unfold parseBigqueryLogEntries
  rw [List.map_cons, hclass]
  rfl

/-- Witness for C3's amended theorem at the concrete shape-only entry. -/
theorem parser_keyerror_propagates_witness :
    ReadEvent.from_entry shapeOnlyEntry
      = .error ("KeyError: ".toList ++ "authenticationInfo".toList)
    ∧ parseBigqueryLogEntries [shapeOnlyEntry]
      = { emitted := [], failures := 0,
          raised := some ("KeyError: ".toList ++ "authenticationInfo".toList) } :=
  parser_keyerror_propagates shapeOnlyEntry [] rfl rfl

/-! ### Python Counter objects and the aggregator -/

/-- A Python `Counter` as an insertion-ordered association list; a key's
position is fixed by its first insertion, updates bump the count in
place. -/
abbrev PyCounter (α : Type) := List (α × Nat)

/-- `counter[k] += 1`. -/
def counterBump {α : Type} [DecidableEq α] (c : PyCounter α) (k : α) : PyCounter α :=
  if c.any (fun p => decide (p.1 = k)) then
    c.map (fun p => if p.1 = k then (p.1, p.2 + 1) else p)
  else c ++ [(k, 1)]

/-- `counter[k]` (0 for an absent key). -/
def counterGet {α : Type} [DecidableEq α] (c : PyCounter α) (k : α) : Nat :=
  match c.find? (fun p => decide (p.1 = k)) with
  | some p => p.2
  | none => 0

theorem counterBump_cons_ne {α : Type} [DecidableEq α] (p : α × Nat)
    (c : PyCounter α) (k : α) (h : p.1 ≠ k) :
    counterBump (p :: c) k = p :: counterBump c k := by
  unfold counterBump
  by_cases hc : c.any (fun q => decide (q.1 = k))
  · rw [if_pos (by simp [hc]), if_pos hc]
    simp [h]
  · rw [if_neg (by simp [h, hc]), if_neg hc]
    simp

theorem counterGet_cons_ne {α : Type} [DecidableEq α] (p : α × Nat)
    (c : PyCounter α) (k : α) (h : p.1 ≠ k) :
    counterGet (p :: c) k = counterGet c k := by
  unfold counterGet
  rw [List.find?_cons_of_neg]
  simp [h]

theorem counterGet_bump_self {α : Type} [DecidableEq α] (c : PyCounter α) (k : α) :
    counterGet (counterBump c k) k = counterGet c k + 1 := by
  induction c with
  | nil => simp [counterBump, counterGet]
  | cons p c ih =>
    by_cases h : p.1 = k
    · unfold counterBump
      rw [if_pos (by simp [h])]
      unfold counterGet
      rw [List.map_cons, List.find?_cons_of_pos, List.find?_cons_of_pos] <;>
        simp [h]
    · rw [counterBump_cons_ne p c k h, counterGet_cons_ne p _ k h,
        counterGet_cons_ne p c k h]
      exact ih

theorem counterGet_map_bump_ne {α : Type} [DecidableEq α] (c : PyCounter α)
    (k k' : α) (h : k' ≠ k) :
    counterGet (c.map (fun p => if p.1 = k then (p.1, p.2 + 1) else p)) k'
      = counterGet c k' := by
  induction c with
  | nil => rfl
  | cons p c ih =>
    rw [List.map_cons]
    by_cases hp : p.1 = k'
    · have hpk : p.1 ≠ k := by rw [hp]; exact h
      unfold counterGet
      rw [List.find?_cons_of_pos, List.find?_cons_of_pos] <;> simp [hp, hpk, h]
    · have : (if p.1 = k then (p.1, p.2 + 1) else p).1 ≠ k' := by
        by_cases hk : p.1 = k <;> simp [hk, hp, Ne.symm h]
      rw [counterGet_cons_ne _ _ _ this, counterGet_cons_ne _ _ _ hp]
      exact ih

theorem counterGet_bump_ne {α : Type} [DecidableEq α] (c : PyCounter α)
    (k k' : α) (h : k' ≠ k) :
    counterGet (counterBump c k) k' = counterGet c k' := by
  unfold counterBump
  by_cases hc : c.any (fun p => decide (p.1 = k))
  · rw [if_pos hc]
    exact counterGet_map_bump_ne c k k' h
  · rw [if_neg hc]
    clear hc
    induction c with
    | nil => unfold counterGet; simp [Ne.symm h]
    | cons p c ih =>
      by_cases hp : p.1 = k'
      · unfold counterGet
        rw [List.cons_append, List.find?_cons_of_pos, List.find?_cons_of_pos] <;>
          simp [hp]
      · rw [List.cons_append, counterGet_cons_ne _ _ _ hp,
          counterGet_cons_ne _ _ _ hp]
        exact ih

/-- The configuration surface consumed by the aggregation core
(`BigQueryUsageConfig`); defaults as in the source. -/
structure BigQueryUsageConfig where
  bucket_duration : BucketDuration := .DAY
  query_log_delay : Nat := 100
  top_n_queries : Option Nat := some 10

/-- `AggregatedDataset` from the source. -/
structure AggregatedDataset where
  bucket_start_time : DateTime
  resource : BigQueryTableRef
  queryFreq : PyCounter Str := []
  userCounts : PyCounter Str := []

/-- Insertion-ordered dict update: fetch-or-create the value at `k`
(default `d`) and transform it with `f` in place. -/
def updateAssoc {α β : Type} [DecidableEq α] (m : List (α × β)) (k : α) (d : β)
    (f : β → β) : List (α × β) :=
  if m.any (fun p => decide (p.1 = k)) then
    m.map (fun p => if p.1 = k then (p.1, f p.2) else p)
  else m ++ [(k, f d)]

/-- The state threaded through `_aggregate_enriched_read_events`: the
per-bucket mapping (a `defaultdict(dict)`) and the report's
dropped-table counter. -/
structure AggState where
  datasets : List (DateTime × List (BigQueryTableRef × AggregatedDataset)) := []
  dropped : PyCounter Str := []

/-- One iteration of `_aggregate_enriched_read_events` from the source:
floor the timestamp, normalize the resource (a raise propagates out of
the stage), count and skip anonymous resources, otherwise
fetch-or-create the accumulator for (bucket, resource), bump the actor's
user count and — when the event carries a non-empty query — the query's
frequency. -/
def aggregateStep (cfg : BigQueryUsageConfig) (st : AggState) (e : ReadEvent) :
    Except Str AggState :=
  let floored := get_time_bucket e.timestamp cfg.bucket_duration
  match e.resource.remove_extras with
  | .error msg => .error msg
  | .ok resource =>
    if resource.is_anonymous then
      .ok { st with dropped := counterBump st.dropped resource.toStr }
    else
      let newDatasets :=
        updateAssoc st.datasets floored []
          (fun inner => updateAssoc inner resource
            { bucket_start_time := floored, resource := resource }
            (fun agg =>
              let agg' := { agg with
                userCounts := counterBump agg.userCounts e.actor_email }
              match e.query with
              | some q =>
                if q.isEmpty then agg'
                else { agg' with queryFreq := counterBump agg'.queryFreq q }
              | none => agg'))
      .ok { st with datasets := newDatasets }

/-- `_aggregate_enriched_read_events` from the source over a finite
joined-event stream. -/
def aggregateEnrichedReadEvents (cfg : BigQueryUsageConfig)
    (events : List ReadEvent) : Except Str AggState :=
  events.foldlM (aggregateStep cfg) { datasets := [], dropped := [] }

/-! ### Claim theorem: anonymous resources are dropped (C6) -/

/-- C6: an event whose normalized resource is anonymous leaves the
aggregation mapping untouched and bumps only the dropped-resource
counter, at exactly the resource's string form, by exactly one. -/
theorem aggregate_drops_anonymous (cfg : BigQueryUsageConfig) (st : AggState)
    (e : ReadEvent) (r : BigQueryTableRef)
    (hn : e.resource.remove_extras = .ok r)
    (ha : r.is_anonymous = true) :
    aggregateStep cfg st e
      = .ok { datasets := st.datasets, dropped := counterBump st.dropped r.toStr }
    ∧ counterGet (counterBump st.dropped r.toStr) r.toStr
      = counterGet st.dropped r.toStr + 1
    ∧ ∀ k, k ≠ r.toStr →
      counterGet (counterBump st.dropped r.toStr) k = counterGet st.dropped k := by
  refine ⟨?_, counterGet_bump_self st.dropped r.toStr,
    fun k hk => counterGet_bump_ne st.dropped r.toStr k hk⟩
  unfold aggregateStep
  rw [hn]
  simp [ha]

/-- A concrete reference with an anonymous (underscore) dataset. -/
def anonResource : BigQueryTableRef := ⟨"p".toList, "_session".toList, "t".toList⟩

/-- A concrete read event on the anonymous resource. -/
def anonReadEvent : ReadEvent :=
  { timestamp := sampleTs, actor_email := "a@x.com".toList,
    resource := anonResource, fieldsRead := [],
    readReason := "JOB".toList, jobName := none }

/-- Witness for C6 at a concrete anonymous-dataset event. -/
theorem aggregate_drops_anonymous_witness :
    aggregateStep {} { datasets := [], dropped := [] } anonReadEvent
      = .ok { datasets := [], dropped := counterBump [] anonResource.toStr } :=
  (aggregate_drops_anonymous {} { datasets := [], dropped := [] } anonReadEvent
    anonResource (by rfl) (by rfl)).1

/-! ### `Counter.most_common` and the usage stat emitter (C8) -/

/-- Stable descending insertion: walk past entries with a strictly
greater count and stop at the first entry with a smaller-or-equal count,
so that among equal counts the earlier-inserted entry stays first. -/
def insertDesc {α : Type} (x : α × Nat) : List (α × Nat) → List (α × Nat)
  | [] => [x]
  | y :: ys => if y.2 > x.2 then y :: insertDesc x ys else x :: y :: ys

/-- Stable sort by descending count (insertion sort). -/
def sortByCountDesc {α : Type} : List (α × Nat) → List (α × Nat)
  | [] => []
  | x :: xs => insertDesc x (sortByCountDesc xs)

/-- `Counter.most_common` from the Python standard library: all entries
sorted by descending count with ties in insertion order; `some k`
truncates to the first `k` entries. -/
def mostCommon {α : Type} (c : PyCounter α) : Option Nat → List (α × Nat)
  | none => sortByCountDesc c
  | some k => (sortByCountDesc c).take k

theorem mem_insertDesc {α : Type} (x z : α × Nat) (l : List (α × Nat)) :
    z ∈ insertDesc x l ↔ z = x ∨ z ∈ l := by
  induction l with
  | nil => simp [insertDesc]
  | cons y ys ih =>
    rw [insertDesc]
    by_cases hyx : y.2 > x.2
    · rw [if_pos hyx]
      simp only [List.mem_cons, ih]
      tauto
    · rw [if_neg hyx]
      simp only [List.mem_cons]

theorem pairwise_insertDesc {α : Type} (x : α × Nat) (l : List (α × Nat))
    (h : List.Pairwise (fun a b => b.2 ≤ a.2) l) :
    List.Pairwise (fun a b => b.2 ≤ a.2) (insertDesc x l) := by
  induction l with
  | nil => simp [insertDesc]
  | cons y ys ih =>
    rw [insertDesc]
    rcases List.pairwise_cons.mp h with ⟨hy, hys⟩
    by_cases hyx : y.2 > x.2
    · rw [if_pos hyx]
      refine List.pairwise_cons.mpr ⟨?_, ih hys⟩
      intro z hz
      rcases (mem_insertDesc x z ys).mp hz with rfl | hzys
      · exact Nat.le_of_lt hyx
      · exact hy z hzys
    · rw [if_neg hyx]
      refine List.pairwise_cons.mpr ⟨?_, h⟩
      intro z hz
      rcases List.mem_cons.mp hz with rfl | hzys
      · exact Nat.le_of_not_lt hyx
      · exact Nat.le_trans (hy z hzys) (Nat.le_of_not_lt hyx)

theorem pairwise_sortByCountDesc {α : Type} (l : List (α × Nat)) :
    List.Pairwise (fun a b => b.2 ≤ a.2) (sortByCountDesc l) := by
  induction l with
  | nil => exact List.Pairwise.nil
  | cons x xs ih => exact pairwise_insertDesc x (sortByCountDesc xs) ih

theorem filter_insertDesc {α : Type} (x : α × Nat) (l : List (α × Nat)) (n : Nat) :
    (insertDesc x l).filter (fun p => p.2 == n)
      = if x.2 = n then x :: l.filter (fun p => p.2 == n)
        else l.filter (fun p => p.2 == n) := by
  induction l with
  | nil => by_cases h : x.2 = n <;> simp [insertDesc, h]
  | cons y ys ih =>
    rw [insertDesc]
    by_cases hyx : y.2 > x.2
    · rw [if_pos hyx]
      by_cases hx : x.2 = n
      · have hy : ¬(y.2 = n) := by omega
        simp [List.filter_cons, hx, hy, ih]
      · simp [List.filter_cons, hx, ih]
    · rw [if_neg hyx]
      by_cases hx : x.2 = n <;> simp [List.filter_cons, hx]

/-- Stability of the sort: the entries with any fixed count appear in
their original (insertion) order. -/
theorem filter_sortByCountDesc {α : Type} (l : List (α × Nat)) (n : Nat) :
    (sortByCountDesc l).filter (fun p => p.2 == n)
      = l.filter (fun p => p.2 == n) := by
  induction l with
  | nil => rfl
  | cons x xs ih =>
    rw [sortByCountDesc, filter_insertDesc]
    by_cases hx : x.2 = n
    · rw [if_pos hx, ih]
      simp [List.filter_cons, hx]
    · rw [if_neg hx, ih]
      simp [List.filter_cons, hx]

/-- One `UsersUsageCountsClass` record of the emitted stat. -/
structure UsersUsageCounts where
  user_email : Str
  count : Nat

/-- The usage record produced by `_make_usage_stat` (the fields the
emitter fills from the accumulator and configuration). -/
structure UsageStat where
  bucket_start_time : DateTime
  duration : BucketDuration
  resource : BigQueryTableRef
  users : List UsersUsageCounts
  top_sql_queries : List Str

/-- `_make_usage_stat` from the source: all user counts through
`most_common()`, and the query texts through
`most_common(top_n_queries)`. -/
def makeUsageStat (cfg : BigQueryUsageConfig) (agg : AggregatedDataset) : UsageStat :=
  { bucket_start_time := agg.bucket_start_time,
    duration := cfg.bucket_duration,
    resource := agg.resource,
    users := (mostCommon agg.userCounts none).map (fun p => ⟨p.1, p.2⟩),
    top_sql_queries := (mostCommon agg.queryFreq cfg.top_n_queries).map (fun p => p.1) }

/-- C8: the emitted record lists the (actor, count) pairs in descending
count order with ties in first-seen order; the query texts come from the
same stable descending order, truncated to at most `top_n_queries`
entries when that is set and complete when it is unset. -/
theorem make_usage_stat_spec (cfg : BigQueryUsageConfig) (agg : AggregatedDataset) :
    (makeUsageStat cfg agg).users
        = (sortByCountDesc agg.userCounts).map (fun p => ⟨p.1, p.2⟩)
    ∧ List.Pairwise (fun a b => b.2 ≤ a.2) (sortByCountDesc agg.userCounts)
    ∧ (∀ n, (sortByCountDesc agg.userCounts).filter (fun p => p.2 == n)
        = agg.userCounts.filter (fun p => p.2 == n))
    ∧ List.Pairwise (fun a b => b.2 ≤ a.2) (sortByCountDesc agg.queryFreq)
    ∧ (∀ n, (sortByCountDesc agg.queryFreq).filter (fun p => p.2 == n)
        = agg.queryFreq.filter (fun p => p.2 == n))
    ∧ (∀ k, cfg.top_n_queries = some k →
        (makeUsageStat cfg agg).top_sql_queries
            = ((sortByCountDesc agg.queryFreq).take k).map (fun p => p.1)
          ∧ (makeUsageStat cfg agg).top_sql_queries.length ≤ k)
    ∧ (cfg.top_n_queries = none →
        (makeUsageStat cfg agg).top_sql_queries
          = (sortByCountDesc agg.queryFreq).map (fun p => p.1)) := by
  refine ⟨rfl, pairwise_sortByCountDesc _,
    fun n => filter_sortByCountDesc _ n,
    pairwise_sortByCountDesc _,
    fun n => filter_sortByCountDesc _ n, ?_, ?_⟩
  · intro k hk
    constructor
    · simp [makeUsageStat, mostCommon, hk]
    · simp only [makeUsageStat, mostCommon, hk, List.length_map]
      have := List.length_take k (sortByCountDesc agg.queryFreq)
      omega
  · intro hk
    simp [makeUsageStat, mostCommon, hk]

/-- A concrete accumulator exercising ties and truncation. -/
def sampleAgg : AggregatedDataset :=
  { bucket_start_time := sampleTs,
    resource := ⟨"p".toList, "d".toList, "t".toList⟩,
    queryFreq := [("q1".toList, 2), ("q2".toList, 1)],
    userCounts := [("b@x".toList, 2), ("a@x".toList, 2), ("c@x".toList, 1)] }

/-- Witness for C8 at the default configuration and a concrete
accumulator. -/
theorem make_usage_stat_spec_witness :
    (makeUsageStat {} sampleAgg).top_sql_queries.length ≤ 10
    ∧ (sortByCountDesc sampleAgg.userCounts).filter (fun p => p.2 == 2)
      = sampleAgg.userCounts.filter (fun p => p.2 == 2) :=
  ⟨((make_usage_stat_spec {} sampleAgg).2.2.2.2.2.1 10 rfl).2,
    (make_usage_stat_spec {} sampleAgg).2.2.1 2⟩

/-! ### The join engine (C1, C7) -/

/-- The bounded job-name history: `cachetools.LRUCache` as an
association list, most recently used first. -/
abbrev LruCache := List (Str × QueryEvent)

/-- `key in cache`: `Cache.__contains__` looks the key up without
refreshing its recency. -/
def lruLookup (lru : LruCache) (k : Str) : Option QueryEvent :=
  (lru.find? (fun p => decide (p.1 = k))).map (fun p => p.2)

/-- `cache[k]`: `LRUCache.__getitem__` returns the value and moves the
key to the most-recently-used position; a miss leaves the cache
unchanged (the source only indexes after a containment check). -/
def lruGet (lru : LruCache) (k : Str) : Option QueryEvent × LruCache :=
  match lru.find? (fun p => decide (p.1 = k)) with
  | none => (none, lru)
  | some p => (some p.2, p :: lru.filter (fun q => decide (q.1 ≠ k)))

/-- `cache[k] = v`: `Cache.__setitem__` with LRU update — an existing
key is moved to the front with the new value; a new key at full capacity
first evicts the least-recently-used entry (the last one). -/
def lruInsert (maxsize : Nat) (lru : LruCache) (k : Str) (v : QueryEvent) : LruCache :=
  (k, v) ::
    (if maxsize ≤ (lru.filter (fun q => decide (q.1 ≠ k))).length
     then (lru.filter (fun q => decide (q.1 ≠ k))).dropLast
     else lru.filter (fun q => decide (q.1 ≠ k)))

/-- State of one `_join_events_by_job_id` run: the bounded history, the
delay buffer (oldest first), the ReadEvents emitted so far, and the
number of unresolved-join warnings reported. -/
structure JoinState where
  lru : LruCache := []
  buf : List ReadEvent := []
  out : List ReadEvent := []
  warnings : Nat := 0

/-- Releasing one ReadEvent from the delay buffer (the body of the
`for event in delayed_read_events` loop, source lines 378–391): a job
name present in the bounded history joins that query's text into the
event (refreshing the key's recency); an absent job name records one
warning; either way the event is emitted; an event with no job name
passes through unchanged. -/
def resolveRead (st : JoinState) (r : ReadEvent) : JoinState :=
  match r.jobName with
  | none => { st with out := st.out ++ [r] }
  | some j =>
    match lruGet st.lru j with
    | (some q, lru2) =>
      { st with lru := lru2, out := st.out ++ [{ r with query := some q.query }] }
    | (none, _) =>
      { st with warnings := st.warnings + 1, out := st.out ++ [r] }

/-- Modelled from the spec: the delay buffer (`delayed_iter` from
`datahub.utilities.delayed_iter`, which is not part of this excerpt)
holds arriving ReadEvents and releases the oldest one, resolving it
against the current history, exactly when a new event pushes the buffer
past the configured capacity `N` (spec §4.2 and §9, "yields (and pops)
its oldest element once a new element pushes it past capacity N"). -/
def joinPush (N : Nat) (st : JoinState) (r : ReadEvent) : JoinState :=
  match st.buf with
  | [] => { st with buf := [r] }
  | b :: rest =>
    if N ≤ rest.length + 1 then
      { resolveRead st b with buf := rest ++ [r] }
    else
      { st with buf := b :: (rest ++ [r]) }

/-- One input event of `_join_events_by_job_id`: a QueryEvent updates
the bounded history immediately (`event_processor`), a ReadEvent goes
through the delay buffer. -/
def joinStep (N : Nat) (st : JoinState) : Event → JoinState
  | .query q => { st with lru := lruInsert (2 * N) st.lru q.jobName q }
  | .read r => joinPush N st r

/-- Modelled from the spec: at end of stream the delay buffer drains,
releasing its remaining events oldest first (spec §4.2: the output has
the same count and order as the input ReadEvent subsequence). -/
def flushBuf (st : JoinState) : JoinState :=
  st.buf.foldl resolveRead { st with buf := [] }

/-- `_join_events_by_job_id` started from an arbitrary state. -/
def runJoin (N : Nat) (st : JoinState) (events : List Event) : JoinState :=
  flushBuf (events.foldl (joinStep N) st)

/-- `_join_events_by_job_id` from the source (delay buffer modelled from
the spec): process the event stream and drain the buffer. -/
def joinEvents (N : Nat) (events : List Event) : JoinState :=
  runJoin N {} events

/-- Survival predicate for the history: `(J, Q)` is a live entry with at
most `s` entries more recently used than it. -/
def lruHolds (J : Str) (Q : QueryEvent) (lru : LruCache) (s : Nat) : Prop :=
  ∃ A B, lru = A ++ (J, Q) :: B ∧ (∀ p ∈ A, p.1 ≠ J) ∧ A.length ≤ s

theorem lruHolds_mono {J : Str} {Q : QueryEvent} {lru : LruCache} {s s' : Nat}
    (h : lruHolds J Q lru s) (hs : s ≤ s') : lruHolds J Q lru s' := by
  obtain ⟨A, B, h1, h2, h3⟩ := h
  exact ⟨A, B, h1, h2, Nat.le_trans h3 hs⟩

theorem find?_key_decomp (J : Str) (Q : QueryEvent) (A B : LruCache)
    (hA : ∀ p ∈ A, p.1 ≠ J) :
    (A ++ (J, Q) :: B).find? (fun p => decide (p.1 = J)) = some (J, Q) := by
  induction A with
  | nil =>
    rw [List.nil_append, List.find?_cons_of_pos]
    simp
  | cons p A ih =>
    rw [List.cons_append, List.find?_cons_of_neg]
    · exact ih (fun q hq => hA q (List.mem_cons_of_mem p hq))
    · simp [hA p (List.mem_cons_self p A)]

theorem lruLookup_holds {J : Str} {Q : QueryEvent} {lru : LruCache} {s : Nat}
    (h : lruHolds J Q lru s) : lruLookup lru J = some Q := by
  obtain ⟨A, B, rfl, hA, -⟩ := h
  unfold lruLookup
  rw [find?_key_decomp J Q A B hA]
  rfl

theorem lruGet_holds {J : Str} {Q : QueryEvent} {lru : LruCache} {s : Nat}
    (h : lruHolds J Q lru s) :
    lruGet lru J = (some Q, (J, Q) :: lru.filter (fun q => decide (q.1 ≠ J)))
    ∧ lruHolds J Q ((J, Q) :: lru.filter (fun q => decide (q.1 ≠ J))) 0 := by
  obtain ⟨A, B, hd, hA, -⟩ := h
  have hfind : lru.find? (fun p => decide (p.1 = J)) = some (J, Q) := by
    rw [hd]; exact find?_key_decomp J Q A B hA
  constructor
  · unfold lruGet
    rw [hfind]
  · exact ⟨[], _, rfl, fun p hp => absurd hp (List.not_mem_nil p), Nat.le_refl 0⟩

theorem filter_ne_decomp (J : Str) (Q : QueryEvent) (A B : LruCache) (k : Str)
    (hk : J ≠ k) :
    (A ++ (J, Q) :: B).filter (fun q => decide (q.1 ≠ k))
      = A.filter (fun q => decide (q.1 ≠ k))
        ++ (J, Q) :: B.filter (fun q => decide (q.1 ≠ k)) := by
  rw [List.filter_append, List.filter_cons]
  simp [hk]

theorem lruGet_other_preserves {J : Str} {Q : QueryEvent} {lru : LruCache}
    {s : Nat} (k : Str) (h : lruHolds J Q lru s) (hk : k ≠ J) :
    lruHolds J Q (lruGet lru k).2 (s + 1) := by
  obtain ⟨A, B, hd, hA, hlen⟩ := h
  unfold lruGet
  cases hfind : lru.find? (fun p => decide (p.1 = k)) with
  | none => exact lruHolds_mono ⟨A, B, hd, hA, hlen⟩ (Nat.le_succ s)
  | some p =>
    have hp1 : p.1 = k := by
      have := List.find?_some hfind
      simpa using this
    refine ⟨p :: A.filter (fun q => decide (q.1 ≠ k)),
      B.filter (fun q => decide (q.1 ≠ k)), ?_, ?_, ?_⟩
    · show p :: lru.filter (fun q => decide (q.1 ≠ k)) = _
      rw [hd, filter_ne_decomp J Q A B k (Ne.symm hk)]
      rfl
    · intro q hq
      rcases List.mem_cons.mp hq with rfl | hqA
      · rw [hp1]; exact hk
      · exact hA q (List.mem_of_mem_filter hqA)
    · have := List.length_filter_le (fun q => decide (q.1 ≠ k)) A
      simp only [List.length_cons]
      omega

theorem lruInsert_self (M : Nat) (lru : LruCache) (J : Str) (Q : QueryEvent) :
    lruHolds J Q (lruInsert M lru J Q) 0 :=
  ⟨[], _, rfl, fun p hp => absurd hp (List.not_mem_nil p), Nat.le_refl 0⟩

theorem lruInsert_other_preserves {J : Str} {Q : QueryEvent} {lru : LruCache}
    {s : Nat} (M : Nat) (k : Str) (v : QueryEvent)
    (h : lruHolds J Q lru s) (hk : k ≠ J) (hs : s + 1 < M) :
    lruHolds J Q (lruInsert M lru k v) (s + 1) := by
  obtain ⟨A, B, hd, hA, hlen⟩ := h
  have hfil : lru.filter (fun q => decide (q.1 ≠ k))
      = A.filter (fun q => decide (q.1 ≠ k))
        ++ (J, Q) :: B.filter (fun q => decide (q.1 ≠ k)) := by
    rw [hd]; exact filter_ne_decomp J Q A B k (Ne.symm hk)
  have hAfA : (A.filter (fun q => decide (q.1 ≠ k))).length ≤ A.length :=
    List.length_filter_le _ _
  unfold lruInsert
  rw [hfil]
  by_cases hcap : M ≤ (A.filter (fun q => decide (q.1 ≠ k))
      ++ (J, Q) :: B.filter (fun q => decide (q.1 ≠ k))).length
  · rw [if_pos hcap]
    have hBf : B.filter (fun q => decide (q.1 ≠ k)) ≠ [] := by
      intro hnil
      rw [hnil, List.length_append, List.length_cons, List.length_nil] at hcap
      omega
    rw [dropLast_append_cons_of_ne_nil _ (J, Q) _ hBf]
    refine ⟨(k, v) :: A.filter (fun q => decide (q.1 ≠ k)), _, rfl, ?_, ?_⟩
    · intro p hp
      rcases List.mem_cons.mp hp with rfl | hpA
      · exact hk
      · exact hA p (List.mem_of_mem_filter hpA)
    · simp only [List.length_cons]
      omega
  · rw [if_neg hcap]
    refine ⟨(k, v) :: A.filter (fun q => decide (q.1 ≠ k)), _, rfl, ?_, ?_⟩
    · intro p hp
      rcases List.mem_cons.mp hp with rfl | hpA
      · exact hk
      · exact hA p (List.mem_of_mem_filter hpA)
    · simp only [List.length_cons]
      omega

/-! ### Step lemmas for the join engine -/

theorem lruGet_fst (lru : LruCache) (k : Str) :
    (lruGet lru k).1 = lruLookup lru k := by
  unfold lruGet lruLookup
  cases hfind : lru.find? (fun p => decide (p.1 = k)) <;> rfl

theorem lruGet_of_lookup_none {lru : LruCache} {k : Str}
    (h : lruLookup lru k = none) : lruGet lru k = (none, lru) := by
  unfold lruLookup at h
  unfold lruGet
  cases hfind : lru.find? (fun p => decide (p.1 = k)) with
  | none => rfl
  | some p => rw [hfind] at h; simp at h

theorem resolveRead_nojob (st : JoinState) (r : ReadEvent) (h : r.jobName = none) :
    resolveRead st r = { st with out := st.out ++ [r] } := by
  unfold resolveRead
  simp only [h]

theorem resolveRead_hit (st : JoinState) (r : ReadEvent) (j : Str)
    (q : QueryEvent) (lru2 : LruCache)
    (h : r.jobName = some j) (hget : lruGet st.lru j = (some q, lru2)) :
    resolveRead st r = { st with lru := lru2, out := st.out ++ [{ r with query := some q.query }] } := by
  unfold resolveRead
  simp only [h, hget]

theorem resolveRead_miss (st : JoinState) (r : ReadEvent) (j : Str)
    (h : r.jobName = some j) (hmiss : lruLookup st.lru j = none) :
    resolveRead st r
      = { st with warnings := st.warnings + 1, out := st.out ++ [r] } := by
  unfold resolveRead
  simp only [h, lruGet_of_lookup_none hmiss]

theorem resolveRead_preserves {J : Str} {Q : QueryEvent} (st : JoinState)
    (b : ReadEvent) {s : Nat} (h : lruHolds J Q st.lru s) :
    lruHolds J Q (resolveRead st b).lru (s + 1) := by
  cases hb : b.jobName with
  | none =>
    rw [resolveRead_nojob st b hb]
    exact lruHolds_mono h (Nat.le_succ s)
  | some j =>
    by_cases hj : j = J
    · subst hj
      rcases lruGet_holds h with ⟨hget, hhold⟩
      rw [resolveRead_hit st b j Q _ hb hget]
      exact lruHolds_mono hhold (Nat.zero_le _)
    · have hpre := lruGet_other_preserves j h hj
      rcases hget : lruGet st.lru j with ⟨o, lru2⟩
      rw [hget] at hpre
      cases o with
      | some q =>
        rw [resolveRead_hit st b j q lru2 hb hget]
        exact hpre
      | none =>
        have hlook : lruLookup st.lru j = none := by
          rw [← lruGet_fst, hget]
        rw [resolveRead_miss st b j hb hlook]
        exact lruHolds_mono h (Nat.le_succ s)

theorem resolveRead_buf (st : JoinState) (b : ReadEvent) :
    (resolveRead st b).buf = st.buf := by
  cases hb : b.jobName with
  | none => rw [resolveRead_nojob st b hb]
  | some j =>
    rcases hget : lruGet st.lru j with ⟨o, lru2⟩
    cases o with
    | some q => rw [resolveRead_hit st b j q lru2 hb hget]
    | none =>
      have hlook : lruLookup st.lru j = none := by
        rw [← lruGet_fst, hget]
      rw [resolveRead_miss st b j hb hlook]

theorem resolveRead_lru_nojob (st : JoinState) (b : ReadEvent)
    (h : b.jobName = none) : (resolveRead st b).lru = st.lru := by
  rw [resolveRead_nojob st b h]

theorem resolveRead_out (st : JoinState) (b : ReadEvent) :
    ∃ x, (resolveRead st b).out = st.out ++ [x] := by
  cases hb : b.jobName with
  | none => exact ⟨b, by rw [resolveRead_nojob st b hb]⟩
  | some j =>
    rcases hget : lruGet st.lru j with ⟨o, lru2⟩
    cases o with
    | some q =>
      exact ⟨{ b with query := some q.query },
        by rw [resolveRead_hit st b j q lru2 hb hget]⟩
    | none =>
      have hlook : lruLookup st.lru j = none := by
        rw [← lruGet_fst, hget]
      exact ⟨b, by rw [resolveRead_miss st b j hb hlook]⟩

theorem mem_out_resolveRead (st : JoinState) (b : ReadEvent) (x : ReadEvent)
    (h : x ∈ st.out) : x ∈ (resolveRead st b).out := by
  obtain ⟨y, hy⟩ := resolveRead_out st b
  rw [hy]
  exact List.mem_append_left _ h

theorem mem_out_foldl_resolve (rs : List ReadEvent) :
    ∀ (st : JoinState) (x : ReadEvent), x ∈ st.out →
      x ∈ (rs.foldl resolveRead st).out := by
  induction rs with
  | nil => intro st x h; exact h
  | cons r rs ih =>
    intro st x h
    exact ih _ x (mem_out_resolveRead st r x h)

theorem joinPush_nil (N : Nat) (st : JoinState) (r : ReadEvent)
    (h : st.buf = []) : joinPush N st r = { st with buf := [r] } := by
  unfold joinPush
  simp only [h]

theorem joinPush_release (N : Nat) (st : JoinState) (r b : ReadEvent)
    (rest : List ReadEvent) (h : st.buf = b :: rest)
    (hN : N ≤ rest.length + 1) :
    joinPush N st r = { resolveRead st b with buf := rest ++ [r] } := by
  unfold joinPush
  simp only [h]
  rw [if_pos hN]

theorem joinPush_wait (N : Nat) (st : JoinState) (r b : ReadEvent)
    (rest : List ReadEvent) (h : st.buf = b :: rest)
    (hN : ¬(N ≤ rest.length + 1)) :
    joinPush N st r = { st with buf := b :: (rest ++ [r]) } := by
  unfold joinPush
  simp only [h]
  rw [if_neg hN]

theorem joinStep_out_mono (N : Nat) (st : JoinState) (e : Event) (x : ReadEvent)
    (h : x ∈ st.out) : x ∈ (joinStep N st e).out := by
  cases e with
  | query q => exact h
  | read r =>
    show x ∈ (joinPush N st r).out
    cases hb : st.buf with
    | nil => rw [joinPush_nil N st r hb]; exact h
    | cons b rest =>
      by_cases hN : N ≤ rest.length + 1
      · rw [joinPush_release N st r b rest hb hN]
        exact mem_out_resolveRead st b x h
      · rw [joinPush_wait N st r b rest hb hN]
        exact h

theorem foldl_joinStep_out_mono (N : Nat) (es : List Event) :
    ∀ (st : JoinState) (x : ReadEvent), x ∈ st.out →
      x ∈ (es.foldl (joinStep N) st).out := by
  induction es with
  | nil => intro st x h; exact h
  | cons e es ih =>
    intro st x h
    exact ih _ x (joinStep_out_mono N st e x h)

theorem runJoin_out_mono (N : Nat) (es : List Event) (st : JoinState)
    (x : ReadEvent) (h : x ∈ st.out) : x ∈ (runJoin N st es).out := by
  unfold runJoin flushBuf
  exact mem_out_foldl_resolve _ _ x (foldl_joinStep_out_mono N es st x h)

/-! ### Event counting for the join budget -/

/-- Whether an event is a QueryEvent (an insertion into the history). -/
def eventIsQuery : Event → Bool
  | .query _ => true
  | .read _ => false

/-- Whether an event is a job-attributed ReadEvent (a potential history
lookup at its release). -/
def eventIsJobRead : Event → Bool
  | .read r => r.jobName.isSome
  | .query _ => false

def countQueryEvents (es : List Event) : Nat := (es.filter eventIsQuery).length

def countJobReads (es : List Event) : Nat := (es.filter eventIsJobRead).length

def countJobReadsR (rs : List ReadEvent) : Nat :=
  (rs.filter (fun r => r.jobName.isSome)).length

theorem countQueryEvents_append (a b : List Event) :
    countQueryEvents (a ++ b) = countQueryEvents a + countQueryEvents b := by
  simp [countQueryEvents, List.filter_append]

theorem countJobReads_append (a b : List Event) :
    countJobReads (a ++ b) = countJobReads a + countJobReads b := by
  simp [countJobReads, List.filter_append]

theorem countJobReadsR_append (a b : List ReadEvent) :
    countJobReadsR (a ++ b) = countJobReadsR a + countJobReadsR b := by
  simp [countJobReadsR, List.filter_append]

/-! ### The join resolution argument (C1) -/

theorem runJoin_cons (N : Nat) (st : JoinState) (e : Event) (es : List Event) :
    runJoin N st (e :: es) = runJoin N (joinStep N st e) es := by
  unfold runJoin
  rw [List.foldl_cons]

theorem runJoin_append (N : Nat) (st : JoinState) (xs ys : List Event) :
    runJoin N st (xs ++ ys) = runJoin N (xs.foldl (joinStep N) st) ys := by
  unfold runJoin
  rw [List.foldl_append]

/-- 1 for a job-attributed read (a potential lookup), else 0. -/
def jr (r : ReadEvent) : Nat := if r.jobName.isSome then 1 else 0

theorem countJobReadsR_cons (r : ReadEvent) (rs : List ReadEvent) :
    countJobReadsR (r :: rs) = jr r + countJobReadsR rs := by
  unfold countJobReadsR jr
  rw [List.filter_cons]
  by_cases h : r.jobName.isSome <;> simp [h] <;> omega

theorem countQueryEvents_cons_query (q : QueryEvent) (es : List Event) :
    countQueryEvents (.query q :: es) = countQueryEvents es + 1 := by
  simp [countQueryEvents, List.filter_cons, eventIsQuery]

theorem countQueryEvents_cons_read (r : ReadEvent) (es : List Event) :
    countQueryEvents (.read r :: es) = countQueryEvents es := by
  simp [countQueryEvents, List.filter_cons, eventIsQuery]

theorem countJobReads_cons_query (q : QueryEvent) (es : List Event) :
    countJobReads (.query q :: es) = countJobReads es := by
  simp [countJobReads, List.filter_cons, eventIsJobRead]

theorem countJobReads_cons_read (r : ReadEvent) (es : List Event) :
    countJobReads (.read r :: es) = jr r + countJobReads es := by
  unfold countJobReads jr
  rw [List.filter_cons]
  have : eventIsJobRead (.read r) = r.jobName.isSome := rfl
  by_cases h : r.jobName.isSome <;> simp [this, h] <;> omega

theorem resolveRead_preserves_jr {J : Str} {Q : QueryEvent} (st : JoinState)
    (b : ReadEvent) {s : Nat} (h : lruHolds J Q st.lru s) :
    lruHolds J Q (resolveRead st b).lru (s + jr b) := by
  cases hb : b.jobName with
  | none =>
    have hjr : jr b = 0 := by simp [jr, hb]
    rw [hjr, resolveRead_nojob st b hb]
    exact h
  | some j =>
    have hjr : jr b = 1 := by simp [jr, hb]
    rw [hjr]
    exact resolveRead_preserves st b h

/-- During the end-of-stream drain nothing is inserted into the history,
so a live entry stays live; the delayed ReadEvent is resolved against it
when its turn comes and the joined event is emitted. -/
theorem flush_resolves (J : Str) (Q : QueryEvent) (R : ReadEvent)
    (hj : R.jobName = some J) :
    ∀ (b₁ : List ReadEvent) (st : JoinState) (b₂ : List ReadEvent) (s : Nat),
      lruHolds J Q st.lru s →
      { R with query := some Q.query }
        ∈ ((b₁ ++ R :: b₂).foldl resolveRead st).out := by
  intro b₁
  induction b₁ with
  | nil =>
    intro st b₂ s h
    rw [List.nil_append, List.foldl_cons]
    apply mem_out_foldl_resolve
    rcases lruGet_holds h with ⟨hget, -⟩
    rw [resolveRead_hit st R J Q _ hj hget]
    simp
  | cons b b₁ ih =>
    intro st b₂ s h
    rw [List.cons_append, List.foldl_cons]
    exact ih (resolveRead st b) b₂ (s + 1) (resolveRead_preserves st b h)

/-- Phase 2: the delayed ReadEvent sits in the buffer behind `b₁`; with
the budget of further history operations bounded, it is eventually
released and resolved. -/
theorem join_phase2 (N : Nat) (J : Str) (Q : QueryEvent) (R : ReadEvent)
    (hj : R.jobName = some J) :
    ∀ (rem : List Event) (st : JoinState) (b₁ b₂ : List ReadEvent) (s : Nat),
      st.buf = b₁ ++ R :: b₂ →
      lruHolds J Q st.lru s →
      (∀ q : QueryEvent, Event.query q ∈ rem → q.jobName ≠ J) →
      s + countQueryEvents rem + countJobReadsR b₁ + 1 ≤ 2 * N →
      { R with query := some Q.query } ∈ (runJoin N st rem).out := by
  intro rem
  induction rem with
  | nil =>
    intro st b₁ b₂ s hbuf h hq hbud
    unfold runJoin flushBuf
    rw [List.foldl_nil, hbuf]
    exact flush_resolves J Q R hj b₁ { st with buf := [] } b₂ s h
  | cons e rem ih =>
    intro st b₁ b₂ s hbuf h hq hbud
    rw [runJoin_cons]
    cases e with
    | query q =>
      have hqJ : q.jobName ≠ J := hq q (List.mem_cons_self _ _)
      rw [countQueryEvents_cons_query] at hbud
      have hs1 : s + 1 < 2 * N := by omega
      apply ih { st with lru := lruInsert (2 * N) st.lru q.jobName q } b₁ b₂ (s + 1)
      · exact hbuf
      · exact lruInsert_other_preserves (2 * N) q.jobName q h hqJ hs1
      · exact fun q' hq' => hq q' (List.mem_cons_of_mem _ hq')
      · omega
    | read r =>
      show _ ∈ (runJoin N (joinPush N st r) rem).out
      rw [countQueryEvents_cons_read] at hbud
      cases hb : st.buf with
      | nil =>
        rw [hb] at hbuf
        cases b₁ <;> simp at hbuf
      | cons b rest =>
        by_cases hN : N ≤ rest.length + 1
        · rw [joinPush_release N st r b rest hb hN]
          cases b₁ with
          | nil =>
            rw [hb, List.nil_append] at hbuf
            have hbR : b = R := (List.cons.injEq _ _ _ _ ▸ hbuf).1
            subst hbR
            apply runJoin_out_mono
            rcases lruGet_holds h with ⟨hget, -⟩
            show _ ∈ (resolveRead st b).out
            rw [resolveRead_hit st b J Q _ hj hget]
            simp
          | cons b' b₁' =>
            rw [hb, List.cons_append] at hbuf
            have hbb : b = b' := (List.cons.injEq _ _ _ _ ▸ hbuf).1
            have hrest : rest = b₁' ++ R :: b₂ := (List.cons.injEq _ _ _ _ ▸ hbuf).2
            subst hbb
            rw [countJobReadsR_cons] at hbud
            apply ih { resolveRead st b with buf := rest ++ [r] } b₁' (b₂ ++ [r]) (s + jr b)
            · show rest ++ [r] = b₁' ++ R :: (b₂ ++ [r])
              rw [hrest, List.append_assoc, List.cons_append]
            · exact resolveRead_preserves_jr st b h
            · exact fun q' hq' => hq q' (List.mem_cons_of_mem _ hq')
            · omega
        · rw [joinPush_wait N st r b rest hb hN]
          apply ih { st with buf := b :: (rest ++ [r]) } b₁ (b₂ ++ [r]) s
          · show b :: (rest ++ [r]) = b₁ ++ R :: (b₂ ++ [r])
            have : b :: rest = b₁ ++ R :: b₂ := by rw [← hb, hbuf]
            rw [← List.cons_append, this, List.append_assoc, List.cons_append]
          · exact h
          · exact fun q' hq' => hq q' (List.mem_cons_of_mem _ hq')
          · omega

theorem countJobReadsR_nil : countJobReadsR [] = 0 := rfl

theorem countQueryEvents_nil : countQueryEvents [] = 0 := rfl

theorem countJobReads_nil : countJobReads [] = 0 := rfl

theorem countJobReadsR_singleton (r : ReadEvent) : countJobReadsR [r] = jr r := by
  rw [countJobReadsR_cons, countJobReadsR_nil]
  omega

theorem joinStep_buf_jobreads (N : Nat) (st : JoinState) (e : Event) :
    countJobReadsR (joinStep N st e).buf
      ≤ countJobReadsR st.buf + countJobReads [e] := by
  cases e with
  | query q =>
    show countJobReadsR st.buf ≤ _
    omega
  | read r =>
    show countJobReadsR (joinPush N st r).buf ≤ _
    rw [countJobReads_cons_read, countJobReads_nil]
    cases hb : st.buf with
    | nil =>
      rw [joinPush_nil N st r hb]
      show countJobReadsR [r] ≤ countJobReadsR [] + (jr r + 0)
      rw [countJobReadsR_singleton, countJobReadsR_nil]
      omega
    | cons b rest =>
      by_cases hN : N ≤ rest.length + 1
      · rw [joinPush_release N st r b rest hb hN]
        show countJobReadsR (rest ++ [r]) ≤ countJobReadsR (b :: rest) + (jr r + 0)
        rw [countJobReadsR_append, countJobReadsR_singleton, countJobReadsR_cons]
        omega
      · rw [joinPush_wait N st r b rest hb hN]
        show countJobReadsR (b :: (rest ++ [r]))
          ≤ countJobReadsR (b :: rest) + (jr r + 0)
        rw [countJobReadsR_cons, countJobReadsR_append, countJobReadsR_singleton,
          countJobReadsR_cons]
        omega

theorem foldl_buf_jobreads (N : Nat) (es : List Event) :
    ∀ st : JoinState, countJobReadsR ((es.foldl (joinStep N) st).buf)
      ≤ countJobReadsR st.buf + countJobReads es := by
  induction es with
  | nil =>
    intro st
    rw [List.foldl_nil, countJobReads_nil]
    omega
  | cons e es ih =>
    intro st
    rw [List.foldl_cons]
    have h1 := ih (joinStep N st e)
    have h2 := joinStep_buf_jobreads N st e
    have h3 : countJobReads (e :: es) = countJobReads [e] + countJobReads es := by
      have := countJobReads_append [e] es
      simpa using this
    omega

/-- Phase 1: the matching QueryEvent is already live in the history and
the ReadEvent is still ahead in the stream; with the budget bounded it
ends up in the buffer and phase 2 applies. -/
theorem join_phase1 (N : Nat) (J : Str) (Q : QueryEvent) (R : ReadEvent)
    (hj : R.jobName = some J) :
    ∀ (mid : List Event) (st : JoinState) (post : List Event) (s : Nat),
      lruHolds J Q st.lru s →
      (∀ q : QueryEvent, Event.query q ∈ mid → q.jobName ≠ J) →
      (∀ q : QueryEvent, Event.query q ∈ post → q.jobName ≠ J) →
      s + countQueryEvents mid + countQueryEvents post + countJobReadsR st.buf
        + countJobReads mid + 1 ≤ 2 * N →
      { R with query := some Q.query }
        ∈ (runJoin N st (mid ++ .read R :: post)).out := by
  intro mid
  induction mid with
  | nil =>
    intro st post s h hqm hqp hbud
    rw [List.nil_append, runJoin_cons]
    rw [countQueryEvents_nil, countJobReads_nil] at hbud
    show _ ∈ (runJoin N (joinPush N st R) post).out
    cases hb : st.buf with
    | nil =>
      rw [joinPush_nil N st R hb]
      apply join_phase2 N J Q R hj post { st with buf := [R] } [] [] s rfl h hqp
      rw [hb, countJobReadsR_nil] at hbud
      rw [countJobReadsR_nil]
      omega
    | cons b rest =>
      rw [hb, countJobReadsR_cons] at hbud
      by_cases hN : N ≤ rest.length + 1
      · rw [joinPush_release N st R b rest hb hN]
        apply join_phase2 N J Q R hj post
          { resolveRead st b with buf := rest ++ [R] } rest [] (s + jr b) rfl
          (resolveRead_preserves_jr st b h) hqp
        omega
      · rw [joinPush_wait N st R b rest hb hN]
        apply join_phase2 N J Q R hj post
          { st with buf := b :: (rest ++ [R]) } (b :: rest) [] s ?_ h hqp ?_
        · show b :: (rest ++ [R]) = (b :: rest) ++ R :: []
          rw [List.cons_append]
        · rw [countJobReadsR_cons]
          omega
  | cons e mid ih =>
    intro st post s h hqm hqp hbud
    rw [List.cons_append, runJoin_cons]
    cases e with
    | query q =>
      have hqJ : q.jobName ≠ J := hqm q (List.mem_cons_self _ _)
      rw [countQueryEvents_cons_query, countJobReads_cons_query] at hbud
      have hs1 : s + 1 < 2 * N := by omega
      apply ih { st with lru := lruInsert (2 * N) st.lru q.jobName q } post (s + 1)
        (lruInsert_other_preserves (2 * N) q.jobName q h hqJ hs1)
        (fun q' hq' => hqm q' (List.mem_cons_of_mem _ hq')) hqp
      show s + 1 + countQueryEvents mid + countQueryEvents post
        + countJobReadsR st.buf + countJobReads mid + 1 ≤ 2 * N
      omega
    | read r =>
      rw [countQueryEvents_cons_read, countJobReads_cons_read] at hbud
      show _ ∈ (runJoin N (joinPush N st r) (mid ++ .read R :: post)).out
      cases hb : st.buf with
      | nil =>
        rw [hb, countJobReadsR_nil] at hbud
        rw [joinPush_nil N st r hb]
        apply ih { st with buf := [r] } post s h
          (fun q' hq' => hqm q' (List.mem_cons_of_mem _ hq')) hqp
        show s + countQueryEvents mid + countQueryEvents post
          + countJobReadsR [r] + countJobReads mid + 1 ≤ 2 * N
        rw [countJobReadsR_singleton]
        omega
      | cons b rest =>
        rw [hb, countJobReadsR_cons] at hbud
        by_cases hN : N ≤ rest.length + 1
        · rw [joinPush_release N st r b rest hb hN]
          apply ih { resolveRead st b with buf := rest ++ [r] } post (s + jr b)
            (resolveRead_preserves_jr st b h)
            (fun q' hq' => hqm q' (List.mem_cons_of_mem _ hq')) hqp
          show s + jr b + countQueryEvents mid + countQueryEvents post
            + countJobReadsR (rest ++ [r]) + countJobReads mid + 1 ≤ 2 * N
          rw [countJobReadsR_append, countJobReadsR_singleton]
          omega
        · rw [joinPush_wait N st r b rest hb hN]
          apply ih { st with buf := b :: (rest ++ [r]) } post s h
            (fun q' hq' => hqm q' (List.mem_cons_of_mem _ hq')) hqp
          show s + countQueryEvents mid + countQueryEvents post
            + countJobReadsR (b :: (rest ++ [r])) + countJobReads mid + 1 ≤ 2 * N
          rw [countJobReadsR_cons, countJobReadsR_append, countJobReadsR_singleton]
          omega

/-! ### Claim theorems: the join engine (C1, C7) -/

/-- C1 (amended): a QueryEvent with job name `J` — the only QueryEvent
with that job name — followed within `query_log_delay` events by a
ReadEvent with job name `J` is joined into that ReadEvent, provided the
number of QueryEvents after it plus the number of job-attributed
ReadEvents elsewhere in the stream stays below `2 * query_log_delay`
(the LRU history capacity), so the entry cannot be evicted before the
delayed release. -/
theorem join_resolves_query (N : Nat) (pre mid post : List Event)
    (Q : QueryEvent) (R : ReadEvent) (J : Str)
    (hj : R.jobName = some J) (hQ : Q.jobName = J)
    (hwithin : mid.length < N)
    (hunique : ∀ q' : QueryEvent, Event.query q' ∈ mid ++ post → q'.jobName ≠ J)
    (hbudget : countQueryEvents (mid ++ post)
        + countJobReads (pre ++ (mid ++ post)) + 1 ≤ 2 * N) :
    { R with query := some Q.query }
      ∈ (joinEvents N (pre ++ Event.query Q :: (mid ++ Event.read R :: post))).out := by
  unfold joinEvents
  have hsplit : pre ++ Event.query Q :: (mid ++ Event.read R :: post)
      = (pre ++ [Event.query Q]) ++ (mid ++ Event.read R :: post) := by
    rw [List.append_assoc]
    rfl
  rw [hsplit, runJoin_append]
  have hst1 : (pre ++ [Event.query Q]).foldl (joinStep N) {}
      = joinStep N (pre.foldl (joinStep N) {}) (Event.query Q) := by
    rw [List.foldl_append, List.foldl_cons, List.foldl_nil]
  rw [hst1]
  have hhold : lruHolds J Q
      (joinStep N (pre.foldl (joinStep N) {}) (Event.query Q)).lru 0 := by
    show lruHolds J Q
      (lruInsert (2 * N) (pre.foldl (joinStep N) {}).lru Q.jobName Q) 0
    rw [hQ]
    exact lruInsert_self (2 * N) _ J Q
  have hbufle : countJobReadsR
      (joinStep N (pre.foldl (joinStep N) {}) (Event.query Q)).buf
      ≤ countJobReads pre := by
    show countJobReadsR ((pre.foldl (joinStep N) {}).buf) ≤ countJobReads pre
    have h1 := foldl_buf_jobreads N pre ({} : JoinState)
    have h0 : countJobReadsR ({} : JoinState).buf = 0 := rfl
    omega
  apply join_phase1 N J Q R hj mid _ post 0 hhold
    (fun q' h' => hunique q' (List.mem_append_left _ h'))
    (fun q' h' => hunique q' (List.mem_append_right _ h'))
  rw [countQueryEvents_append] at hbudget
  rw [countJobReads_append, countJobReads_append] at hbudget
  omega

/-- Builder for the concrete QueryEvents below. -/
def mkQ (name text : Str) : QueryEvent :=
  { timestamp := sampleTs, actor_email := "u".toList, query := text,
    destinationTable := none, referencedTables := none, jobName := name }

/-- Builder for the concrete ReadEvents below. -/
def mkR (name : Option Str) : ReadEvent :=
  { timestamp := sampleTs, actor_email := "u".toList,
    resource := ⟨"p".toList, "d".toList, "t".toList⟩,
    fieldsRead := [], readReason := "JOB".toList, jobName := name }

/-- A stream in which Q(J) is immediately followed by R(J) (well within
`query_log_delay = 1`), but three QueryEvents with other job names
arrive before R(J) is released from the delay buffer. -/
def cexJoinEvents : List Event :=
  [.query (mkQ "J".toList "text".toList), .read (mkR (some "J".toList)),
   .query (mkQ "a".toList "qa".toList), .query (mkQ "b".toList "qb".toList),
   .query (mkQ "c".toList "qc".toList), .read (mkR (some "x".toList))]

/-- C1 counterexample: with `query_log_delay = 1`, the QueryEvent with
job name `J` is followed immediately — within `query_log_delay` events —
by the ReadEvent with job name `J`, yet the emitted ReadEvent carries no
query text: the three later QueryEvents evicted `J` from the
size-`2 * query_log_delay` LRU history before the delayed release. -/
theorem join_counterexample :
    cexJoinEvents = [] ++ Event.query (mkQ "J".toList "text".toList)
        :: ([] ++ Event.read (mkR (some "J".toList))
        :: [.query (mkQ "a".toList "qa".toList),
            .query (mkQ "b".toList "qb".toList),
            .query (mkQ "c".toList "qc".toList),
            .read (mkR (some "x".toList))])
    ∧ (mkR (some "J".toList)).jobName = some "J".toList
    ∧ (mkQ "J".toList "text".toList).jobName = "J".toList
    ∧ ([] : List Event).length < 1
    ∧ (joinEvents 1 cexJoinEvents).out.map (fun r => r.query) = [none, none]
    ∧ (joinEvents 1 cexJoinEvents).warnings = 2 :=
  ⟨rfl, rfl, rfl, Nat.zero_lt_one, rfl, rfl⟩

/-- Witness for C1's amended theorem: the minimal resolving stream. -/
theorem join_resolves_query_witness :
    { mkR (some "J".toList) with query := some "text".toList }
      ∈ (joinEvents 1 [Event.query (mkQ "J".toList "text".toList),
          Event.read (mkR (some "J".toList))]).out :=
  join_resolves_query 1 [] [] [] (mkQ "J".toList "text".toList)
    (mkR (some "J".toList)) "J".toList rfl rfl Nat.zero_lt_one
    (fun q' h' => absurd h' (List.not_mem_nil _)) (by decide)

/-- C7: a ReadEvent released from the delay buffer whose job name is
absent from the bounded history is still emitted, unchanged — so its
query field stays as it was parsed, i.e. unset — with exactly one
warning recorded; history, buffer and warning state are otherwise
untouched, so the pipeline continues. -/
theorem join_unresolved_warns (st : JoinState) (r : ReadEvent) (j : Str)
    (hj : r.jobName = some j) (hmiss : lruLookup st.lru j = none) :
    resolveRead st r
      = { lru := st.lru, buf := st.buf, out := st.out ++ [r],
          warnings := st.warnings + 1 } :=
  resolveRead_miss st r j hj hmiss

/-- Witness for C7 at a concrete unmatched read. -/
theorem join_unresolved_warns_witness :
    resolveRead {} (mkR (some "x".toList))
      = { lru := [], buf := [], out := [] ++ [mkR (some "x".toList)],
          warnings := 0 + 1 } :=
  join_unresolved_warns {} (mkR (some "x".toList)) "x".toList rfl rfl
